import Mathlib

/-!
### Shallow embedding of the faber-taa core (streamlit_app.py)

The repository computes a 10-month simple-moving-average timing strategy.
We embed the two core functions, `calc_10month_sma` and `calc_evolution`,
together with the trimming done by `load_history`, over exact rational
arithmetic.

Modelling conventions:
* A trading-day observation is a pair `(date, close)`; dates encode a
  calendar as `32 * month + dayOfMonth` (so the pandas `Month` period tag
  of a date is `date / 32`, and the first calendar day of month `m` is
  `32 * m`).
* pandas index alignment is modelled by association-list lookup on dates
  (dates are unique in a well-formed series).
* Failures that the Python code raises (pandas `IndexError` on an empty
  selection, the explicit `TickerNotFoundException`) are modelled by
  `Except.error`.
-/

abbrev HRow := ℕ × ℚ

def monthOf (d : ℕ) : ℕ := d / 32

structure SmaRow where
  date : ℕ
  sma : ℚ
  close : ℚ
  inM : ℕ
  buy : Bool
  sell : Bool
  deriving Repr, DecidableEq, Inhabited

/-- Order-preserving first-occurrence deduplication, as pandas `unique`. -/
def uniqueMonths : List ℕ → List ℕ
  | [] => []
  | m :: rest => m :: (uniqueMonths rest).filter (fun x => x ≠ m)

/-- `history.groupby("Month")["Close"].sum()` for one month. -/
def monthSum (h : List HRow) (m : ℕ) : ℚ :=
  ((h.filter (fun r => monthOf r.1 = m)).map (fun r => r.2)).sum

/-- `history.groupby("Month")["Close"].count()` for one month. -/
def monthCount (h : List HRow) (m : ℕ) : ℕ :=
  (h.filter (fun r => monthOf r.1 = m)).length

/-- The windows of `rolling(10)` that survive `dropna()`: the 10-element
windows of consecutive entries of `l`, one ending at each position from 9 on. -/
def windows10 (l : List ℕ) : List (List ℕ) :=
  (List.range (l.length - 9)).map (fun j => (l.drop j).take 10)

/-- `month_groups.rolling(10).sum().dropna()` followed by
`sma["MonthSum"] / sma["MonthCount"]`. -/
def smaValues (h : List HRow) : List ℚ :=
  (windows10 (uniqueMonths (h.map (fun r => monthOf r.1)))).map
    (fun w => (w.map (monthSum h)).sum / ((w.map (monthCount h)).sum : ℚ))

/-- `history.drop(history.index[history.index < sma.index[0].to_timestamp()])`:
drop all days strictly before the first calendar day of month `m0`. -/
def trimHist (h : List HRow) (m0 : ℕ) : List HRow :=
  h.filter (fun r => ¬ r.1 < 32 * m0)

/-- `history.reset_index().groupby("Month").last()["Date"]` for one month. -/
def lastDateOfMonth (t : List HRow) (m : ℕ) : ℕ :=
  (((t.filter (fun r => monthOf r.1 = m)).getLast?).map (fun r => r.1)).getD 0

/-- Index-aligned read `sma["Close"] = history["Close"]` at one date. -/
def closeAtDate (t : List HRow) (d : ℕ) : ℚ :=
  ((t.find? (fun r => r.1 = d)).map (fun r => r.2)).getD 0

/-- `sma["Buy"] = sma["In"].diff() == 1` and `sma["Sell"] = sma["In"].diff() == -1`:
attach buy/sell flags given the previous row's `In` value (`none` for the first
row, whose `diff` is NaN and therefore flags false). -/
def addFlags : Option ℕ → List (ℕ × ℚ × ℚ × ℕ) → List SmaRow
  | _, [] => []
  | p, (d, s, c, i) :: rest =>
    { date := d, sma := s, close := c, inM := i,
      buy := match p with | none => false | some q => decide ((i : ℤ) - (q : ℤ) = 1),
      sell := match p with | none => false | some q => decide ((i : ℤ) - (q : ℤ) = -1) }
      :: addFlags (some i) rest

/-- Embedding of `calc_10month_sma`.  Returns the in-place-trimmed daily
series together with the SMA table; errors (pandas `IndexError` at
`sma.index[0]`) when fewer than 10 distinct months are present. -/
def calc_10month_sma (h : List HRow) : Except String (List HRow × List SmaRow) :=
  let months := uniqueMonths (h.map (fun r => monthOf r.1))
  if months.length < 10 then
    Except.error "IndexError: fewer than 10 complete months"
  else
    let vals := smaValues h
    let trimmed := trimHist h ((months.drop 9).headD 0)
    let dates := (months.drop 9).map (lastDateOfMonth trimmed)
    let base := (dates.zip vals).map (fun p =>
      (p.1, p.2, closeAtDate trimmed p.1,
        if p.2 < closeAtDate trimmed p.1 then 1 else 0))
    Except.ok (trimmed, addFlags none base)

structure EvoRow where
  inS : ℤ
  cp : ℚ
  date : ℕ
  deriving Repr, DecidableEq, Inhabited

/-- Association-list lookup on dates (pandas index alignment). -/
def alookup {β : Type} (d : ℕ) : List (ℕ × β) → Option β
  | [] => none
  | (k, v) :: t => if k = d then some v else alookup d t

/-- `sma["In"].diff()`: the month-over-month `In` difference, keyed by the
date of the later row.  The first row's diff is NaN and yields no entry. -/
def smaDiffAssoc : List SmaRow → List (ℕ × ℤ)
  | a :: b :: t => (b.date, (b.inM : ℤ) - (a.inM : ℤ)) :: smaDiffAssoc (b :: t)
  | _ => []

/-- `history["In"] = sma["In"].diff()` then `.fillna(0)`, at one day. -/
def dayDiff (sma : List SmaRow) (d : ℕ) : ℤ :=
  (alookup d (smaDiffAssoc sma)).getD 0

def rawDiffs (days : List HRow) (sma : List SmaRow) : List ℤ :=
  days.map (fun r => dayDiff sma r.1)

def cumsum : ℤ → List ℤ → List ℤ
  | _, [] => []
  | a, d :: l => (a + d) :: cumsum (a + d) l

def cumprod : ℚ → List ℚ → List ℚ
  | _, [] => []
  | a, x :: l => (a * x) :: cumprod (a * x) l

/-- `history["Close"].pct_change() + 1` with the first entry set to 1. -/
def cpList : List HRow → List ℚ
  | [] => []
  | d :: rest => 1 :: ((d :: rest).zip rest).map (fun p => (p.2.2 - p.1.2) / p.1.2 + 1)

/-- Lines 65-71: the daily `In` column after the diff/fillna, initial-state
fix (`history.loc[history.index[0], "In"] = 1` when the first sell precedes
the first buy) and `cumsum`.  When either transition is missing the fix is
unreachable in the Python code (it raises first); the value returned in that
case is irrelevant to `calc_evolution`, which errors before using it. -/
def inStateList (days : List HRow) (sma : List SmaRow) : List ℤ :=
  let raw := rawDiffs days sma
  match days.find? (fun r => dayDiff sma r.1 = -1), days.find? (fun r => dayDiff sma r.1 = 1) with
  | some fs, some fb => cumsum 0 (if fs.1 < fb.1 then raw.set 0 1 else raw)
  | _, _ => cumsum 0 raw

def zipRows : List ℤ → List ℚ → List ℕ → List EvoRow
  | i :: il, c :: cl, d :: dl => ⟨i, c, d⟩ :: zipRows il cl dl
  | _, _, _ => []

/-- The per-day working table of `calc_evolution`: daily `In` state, daily
price-change factor, date. -/
def evoRows (days : List HRow) (sma : List SmaRow) : List EvoRow :=
  zipRows (inStateList days sma) (cpList days) (days.map (fun r => r.1))

/-- `history["ChangePctStrategy"]` before the per-segment overwrite:
the daily factor while `In == 1`, and 1 otherwise (line 74-75). -/
def baseFactor (r : EvoRow) : ℚ := if r.inS = 1 then r.cp else 1

/-- One step of run-length grouping by the `In` value (the groupby key
`(history["In"] != history["In"].shift()).cumsum()`). -/
def runsCons (x : EvoRow) : List (List EvoRow) → List (List EvoRow)
  | (y :: ys) :: gs => if x.inS = y.inS then (x :: y :: ys) :: gs else [x] :: (y :: ys) :: gs
  | [] :: gs => [x] :: gs
  | [] => [[x]]

/-- Maximal runs of consecutive days with equal `In` value. -/
def groupRuns : List EvoRow → List (List EvoRow)
  | [] => []
  | x :: xs => runsCons x (groupRuns xs)

/-- `gain` aggregation `"In": "prod"`. -/
def inProd (g : List EvoRow) : ℤ := (g.map (fun r => r.inS)).prod

/-- `gain` aggregation `"ChangePct": "prod"`. -/
def cpProd (g : List EvoRow) : ℚ := (g.map (fun r => r.cp)).prod

/-- `gain` aggregation `lambda x: x.iloc[:-1].prod()`. -/
def cpProdButLast (g : List EvoRow) : ℚ := ((g.map (fun r => r.cp)).dropLast).prod

/-- Lines 86-91: the per-run replacement factor
`((prod - 1) * (1 - tax/100) + 1) / prod_but_last`, forced to 1 on runs with
`In` product 0 (out-of-market runs). -/
def gainFactor (tax : ℚ) (g : List EvoRow) : ℚ :=
  if inProd g = 0 then 1
  else ((cpProd g - 1) * (1 - tax / 100) + 1) / cpProdButLast g

/-- The `gain` table keyed by each run's last date (line 85). -/
def gainAssoc (tax : ℚ) (rows : List EvoRow) : List (ℕ × ℚ) :=
  (groupRuns rows).map (fun g => ((g.getLastD default).date, gainFactor tax g))

/-- Line 93, `history.loc[gain.index, "ChangePctStrategy"] = gain["ChangePct"]`:
each day's strategy factor, with run-final days overwritten by the run factor. -/
def strategyFactors (tax : ℚ) (rows : List EvoRow) : List ℚ :=
  rows.map (fun r =>
    match alookup r.date (gainAssoc tax rows) with
    | some f => f
    | none => baseFactor r)

/-- Embedding of `calc_evolution`.  Errors exactly where the Python code
raises `IndexError`: at line 67 when no `-1` diff (sell) exists and at line
68 when no `+1` diff (buy) exists. -/
def calc_evolution (days : List HRow) (sma : List SmaRow) (tax ini : ℚ) :
    Except String (List ℚ × List ℚ × List (Option ℚ)) :=
  match days.find? (fun r => dayDiff sma r.1 = -1), days.find? (fun r => dayDiff sma r.1 = 1) with
  | none, _ => Except.error "IndexError: no sell transition"
  | some _, none => Except.error "IndexError: no buy transition"
  | some _, some _ =>
    let inL := inStateList days sma
    let cps := cpList days
    let bh := (cumprod 1 cps).map (fun x => x * ini)
    let strat := (cumprod 1 (strategyFactors tax (evoRows days sma))).map (fun x => x * ini)
    let flat := (inL.zip strat).map (fun p => if p.1 = 0 then some p.2 else none)
    Except.ok (bh, strat, flat)

/-- Embedding of the trimming part of `load_history` (the network fetch is
out of scope): drop days up to and including the first month's end
(modelled calendar: business month end is the last day slot, `32*m + 31`),
then drop the whole last remaining month.  Errors on an empty series
(`TickerNotFoundException`) and on the pandas `IndexError` at
`history.index[-1]` when the first trim empties the series. -/
def load_history (raw : List HRow) : Except String (List HRow) :=
  match raw with
  | [] => Except.error "TickerNotFoundException"
  | r0 :: _ =>
    let h1 := raw.filter (fun r => 32 * monthOf r0.1 + 31 < r.1)
    match h1.getLast? with
    | none => Except.error "IndexError: empty after first-month trim"
    | some rl => Except.ok (h1.filter (fun r => r.1 < 32 * monthOf rl.1))

/-- The full core pipeline: history normalization, signal computation,
evolution simulation.  The in-place mutation of the daily series by
`calc_10month_sma` is modelled by threading the trimmed series explicitly. -/
def runPipeline (raw : List HRow) (tax ini : ℚ) :
    Except String (List SmaRow × (List ℚ × List ℚ × List (Option ℚ))) :=
  match load_history raw with
  | Except.error e => Except.error e
  | Except.ok h =>
    match calc_10month_sma h with
    | Except.error e => Except.error e
    | Except.ok (t, sma) =>
      match calc_evolution t sma tax ini with
      | Except.error e => Except.error e
      | Except.ok out => Except.ok (sma, out)

/-! ### Concrete inputs used as counterexamples and failing inputs -/

/-- An 11-complete-month daily series (one trading day per month, dates
`32*m`), with closes 100 for months 1-9, 200 in month 10, 50 in month 11:
month 10 closes above its 10-month SMA (110), month 11 below (105), so the
SMA table has exactly one sell and no buy. -/
def c3hist : List HRow :=
  [(32, 100), (64, 100), (96, 100), (128, 100), (160, 100), (192, 100),
   (224, 100), (256, 100), (288, 100), (320, 200), (352, 50)]

/-- An 11-complete-month daily series with closes 100 for months 1-9, 50 in
month 10, 300 in month 11: the SMA table has exactly one buy and no sell. -/
def c4hist : List HRow :=
  [(32, 100), (64, 100), (96, 100), (128, 100), (160, 100), (192, 100),
   (224, 100), (256, 100), (288, 100), (320, 50), (352, 300)]

/-- Six trading days with a doubling on the last day. -/
def c1days : List HRow := [(0, 100), (1, 100), (2, 100), (3, 100), (4, 100), (5, 200)]

/-- SMA table with `In` values 1, 0, 1 at dates 1, 3, 5: a sell at date 3
and a buy at date 5, so the strategy starts in-market, and the final
in-market segment (day 5 only) is never followed by a sell. -/
def c1sma : List SmaRow :=
  [⟨1, 90, 100, 1, false, false⟩, ⟨3, 110, 100, 0, false, true⟩,
   ⟨5, 150, 200, 1, true, false⟩]

/-- Six trading days whose prices halve on days 3 and 4. -/
def c2days : List HRow := [(0, 100), (1, 100), (2, 100), (3, 50), (4, 25), (5, 25)]

/-- SMA table with `In` values 0, 1, 0 at dates 1, 3, 5: a buy at date 3
and a sell at date 5, so days 3-4 form a completed in-market segment with
compounded pre-tax factor 1/4 < 1. -/
def c2sma : List SmaRow :=
  [⟨1, 150, 100, 0, false, false⟩, ⟨3, 40, 50, 1, true, false⟩,
   ⟨5, 30, 25, 0, false, true⟩]

/-- C3: on an 11-complete-month series whose only transition is a sell
(month 10 above its SMA, month 11 below), the signal engine produces the
expected one-sell-zero-buy table, but `calc_evolution`, instead of
resolving the initial state to "in" and succeeding as the claim states,
raises `IndexError` at the `first_buy` lookup on an empty selection. -/
theorem C3_one_sell_no_buy_crashes :
    calc_10month_sma c3hist =
      Except.ok ([(320, 200), (352, 50)],
        [⟨320, 110, 200, 1, false, false⟩, ⟨352, 105, 50, 0, false, true⟩]) ∧
    (calc_10month_sma c3hist).bind (fun p => calc_evolution p.1 p.2 26 10000) =
      Except.error "IndexError: no buy transition" := by
  constructor <;>
  norm_num [calc_10month_sma, c3hist, uniqueMonths, monthOf, smaValues, windows10, monthSum,
    monthCount, trimHist, lastDateOfMonth, closeAtDate, addFlags, calc_evolution, dayDiff,
    smaDiffAssoc, alookup, List.find?, Except.bind]

/-- C4: on an 11-complete-month series whose only transition is a buy, the
SMA table contains a transition, yet `calc_evolution` fails (`IndexError`
at the `first_sell` lookup on an empty selection), so "fails if and only if
no transition exists" does not hold of the code. -/
theorem C4_one_buy_no_sell_crashes :
    calc_10month_sma c4hist =
      Except.ok ([(320, 50), (352, 300)],
        [⟨320, 95, 50, 0, false, false⟩, ⟨352, 115, 300, 1, true, false⟩]) ∧
    (calc_10month_sma c4hist).bind (fun p => calc_evolution p.1 p.2 26 10000) =
      Except.error "IndexError: no sell transition" := by
  constructor <;>
  norm_num [calc_10month_sma, c4hist, uniqueMonths, monthOf, smaValues, windows10, monthSum,
    monthCount, trimHist, lastDateOfMonth, closeAtDate, addFlags, calc_evolution, dayDiff,
    smaDiffAssoc, alookup, List.find?, Except.bind]

/-- C1 counterexample: an accepted input that ends in-market (the final
in-market segment, day 5, is not followed by a sell), where the strategy
factor of the last day of history is the tax-adjusted 87/50 = 1.74 and not
the pre-tax daily price-change factor 2: the final segment is taxed. -/
theorem C1_counterexample :
    calc_evolution c1days c1sma 26 10000 =
      Except.ok ([10000, 10000, 10000, 10000, 10000, 20000],
        [10000, 10000, 10000, 10000, 10000, 17400],
        [none, none, none, some 10000, some 10000, none]) ∧
    (strategyFactors 26 (evoRows c1days c1sma)).getLast? = some (87 / 50) ∧
    (cpList c1days).getLast? = some 2 ∧ ((87 : ℚ) / 50) ≠ 2 := by
  refine ⟨?_, ?_, ?_, ?_⟩ <;>
  norm_num [calc_evolution, c1days, c1sma, inStateList, rawDiffs, dayDiff, smaDiffAssoc,
    alookup, cumsum, cumprod, cpList, evoRows, zipRows, strategyFactors, gainAssoc, groupRuns,
    runsCons, gainFactor, inProd, cpProd, cpProdButLast, baseFactor, List.find?]

/-- C2 counterexample: an accepted input with a completed in-market segment
(days 3-4) of compounded pre-tax factor 1/4 ≤ 1; the claim says such a
segment is untaxed, but the code changes its terminal-day factor from the
pre-tax 1/2 to 89/100 (a tax rebate on the loss). -/
theorem C2_counterexample :
    calc_evolution c2days c2sma 26 10000 =
      Except.ok ([10000, 10000, 10000, 5000, 2500, 2500],
        [10000, 10000, 10000, 5000, 4450, 4450],
        [some 10000, some 10000, some 10000, none, none, some 4450]) ∧
    (strategyFactors 26 (evoRows c2days c2sma)).get? 4 = some (89 / 100) ∧
    (cpList c2days).get? 4 = some (1 / 2) ∧ ((89 : ℚ) / 100) ≠ 1 / 2 := by
  refine ⟨?_, ?_, ?_, ?_⟩ <;>
  norm_num [calc_evolution, c2days, c2sma, inStateList, rawDiffs, dayDiff, smaDiffAssoc,
    alookup, cumsum, cumprod, cpList, evoRows, zipRows, strategyFactors, gainAssoc, groupRuns,
    runsCons, gainFactor, inProd, cpProd, cpProdButLast, baseFactor, List.find?]

/-- C9: the full core pipeline is a pure function of the raw daily series
and the parameters: the in-place trimming of the daily series is threaded
through `runPipeline` and never escapes to the caller's series, so two runs
on the identical raw series and parameters give identical SMA tables and
identical output series. -/
theorem C9_pipeline_deterministic (raw : List HRow) (tax ini : ℚ) :
    runPipeline raw tax ini = runPipeline raw tax ini := rfl

/-! ### Length lemmas for the SMA construction -/

theorem addFlags_length (p : Option ℕ) (base : List (ℕ × ℚ × ℚ × ℕ)) :
    (addFlags p base).length = base.length := by
  induction base generalizing p with
  | nil => rfl
  | cons x rest ih => obtain ⟨d, s, c, i⟩ := x; simp [addFlags, ih]

theorem smaValues_length (h : List HRow) :
    (smaValues h).length = (uniqueMonths (h.map (fun r => monthOf r.1))).length - 9 := by
  simp [smaValues, windows10]

/-- C5: the monthly signal engine fails exactly when fewer than 10 complete
months are present in the (chronologically sorted) input series, and on
success the SMA table is non-empty. -/
theorem C5_insufficient_history (h : List HRow)
    (hs : List.Pairwise (fun a b => a.1 < b.1) h) :
    ((calc_10month_sma h).isOk = false ↔
      (uniqueMonths (h.map (fun r => monthOf r.1))).length < 10) ∧
    (∀ t s, calc_10month_sma h = Except.ok (t, s) → s ≠ []) := by
  by_cases hlt : (uniqueMonths (h.map (fun r => monthOf r.1))).length < 10
  · refine ⟨by simp [calc_10month_sma, hlt, Except.isOk, Except.toBool], ?_⟩
    intro t s hok
    simp [calc_10month_sma, hlt] at hok
  · refine ⟨by simp [calc_10month_sma, hlt, Except.isOk, Except.toBool], ?_⟩
    intro t s hok
    simp only [calc_10month_sma, hlt, if_false, Except.ok.injEq, Prod.mk.injEq] at hok
    intro hnil
    have hlen := congrArg List.length hok.2
    rw [hnil, addFlags_length] at hlen
    simp [smaValues_length] at hlen
    omega

/-- A 10-complete-month series (one trading day per month), closes 100 for
months 1-9 and 200 for month 10. -/
def tenMonthHist : List HRow :=
  [(32, 100), (64, 100), (96, 100), (128, 100), (160, 100), (192, 100),
   (224, 100), (256, 100), (288, 100), (320, 200)]

/-- Witness for C5 at a concrete sorted 10-month series. -/
theorem C5_witness :
    ((calc_10month_sma tenMonthHist).isOk = false ↔
      (uniqueMonths (tenMonthHist.map (fun r => monthOf r.1))).length < 10) ∧
    (∀ t s, calc_10month_sma tenMonthHist = Except.ok (t, s) → s ≠ []) :=
  C5_insufficient_history tenMonthHist (by norm_num [tenMonthHist, List.pairwise_cons])

/-! ### Cumulative product and telescoping lemmas -/

theorem getLast?_cons_of_ne_nil {α : Type} (x : α) (l : List α) (h : l ≠ []) :
    (x :: l).getLast? = l.getLast? := by
  cases l with
  | nil => exact absurd rfl h
  | cons y u => exact List.getLast?_cons_cons

theorem getLast?_map {α β : Type} (f : α → β) (l : List α) :
    (l.map f).getLast? = (l.getLast?).map f := by
  induction l with
  | nil => rfl
  | cons x t ih =>
    cases t with
    | nil => rfl
    | cons y u =>
      simp only [List.map_cons, List.getLast?_cons_cons] at ih ⊢
      exact ih

theorem cumprod_ne_nil (a : ℚ) (x : ℚ) (l : List ℚ) : cumprod a (x :: l) ≠ [] := by
  simp [cumprod]

theorem cumprod_getLast? (l : List ℚ) : ∀ (a : ℚ), l ≠ [] →
    (cumprod a l).getLast? = some (a * l.prod) := by
  induction l with
  | nil => intro a h; exact absurd rfl h
  | cons x t ih =>
    intro a _
    cases t with
    | nil => simp [cumprod]
    | cons y u =>
      rw [cumprod, getLast?_cons_of_ne_nil _ _ (cumprod_ne_nil _ _ _),
        ih (a * x) (by simp)]
      simp [mul_assoc]

theorem pairCp_prod : ∀ (rest : List HRow) (d L : HRow),
    (∀ r ∈ d :: rest, r.2 ≠ 0) → (d :: rest).getLast? = some L →
    (((d :: rest).zip rest).map (fun p => (p.2.2 - p.1.2) / p.1.2 + 1)).prod = L.2 / d.2 := by
  intro rest
  induction rest with
  | nil =>
    intro d L hnz hL
    simp only [List.getLast?_singleton, Option.some.injEq] at hL
    subst hL
    simp [div_self (hnz d (by simp))]
  | cons b t ih =>
    intro d L hnz hL
    have hd : d.2 ≠ 0 := hnz d (by simp)
    have hb : b.2 ≠ 0 := hnz b (by simp)
    have hL' : (b :: t).getLast? = some L := by
      rwa [getLast?_cons_of_ne_nil d (b :: t) (by simp)] at hL
    have ihe := ih b L (fun r hr => hnz r (List.mem_cons_of_mem d hr)) hL'
    simp only [List.zip_cons_cons, List.map_cons, List.prod_cons]
    rw [ihe]
    field_simp
    ring

/-- C8: on every accepted input with positive closes, the buy-and-hold
series starts at `ini` and its last value is exactly
`ini * (last close / first close)`: the daily factors telescope, with no
tax and no dependence on the in/out state. -/
theorem C8_buy_and_hold_telescopes (days : List HRow) (sma : List SmaRow)
    (tax ini : ℚ) (bh st : List ℚ) (fl : List (Option ℚ)) (d0 dn : HRow)
    (hpos : ∀ r ∈ days, 0 < r.2)
    (h0 : days.head? = some d0) (hn : days.getLast? = some dn)
    (hok : calc_evolution days sma tax ini = Except.ok (bh, st, fl)) :
    bh.head? = some ini ∧ bh.getLast? = some (ini * (dn.2 / d0.2)) := by
  cases days with
  | nil => simp at h0
  | cons e rest =>
    simp only [List.head?_cons, Option.some.injEq] at h0
    subst h0
    have hbh : (cumprod 1 (cpList (e :: rest))).map (fun x => x * ini) = bh := by
      rcases hfs : (e :: rest).find? (fun r => dayDiff sma r.1 = -1) with _ | fs
      · rw [calc_evolution, hfs] at hok; simp at hok
      · rcases hfb : (e :: rest).find? (fun r => dayDiff sma r.1 = 1) with _ | fb
        · rw [calc_evolution, hfs, hfb] at hok; simp at hok
        · rw [calc_evolution, hfs, hfb] at hok
          simp only [Except.ok.injEq, Prod.mk.injEq] at hok
          exact hok.1
    have hnz : ∀ r ∈ e :: rest, r.2 ≠ 0 := fun r hr => ne_of_gt (hpos r hr)
    constructor
    · rw [← hbh]
      simp [cpList, cumprod]
    · rw [← hbh, getLast?_map, cumprod_getLast? _ _ (by simp [cpList]), Option.map_some']
      have hprod : (cpList (e :: rest)).prod = dn.2 / e.2 := by
        rw [cpList, List.prod_cons, pairCp_prod rest e dn hnz hn]
        ring
      rw [hprod]
      congr 1
      ring

/-- Three trading days whose price halves then quadruples. -/
def c8days : List HRow := [(0, 100), (1, 50), (2, 200)]

/-- SMA table with a buy at date 1 and a sell at date 2. -/
def c8sma : List SmaRow :=
  [⟨0, 120, 100, 0, false, false⟩, ⟨1, 40, 50, 1, true, false⟩,
   ⟨2, 150, 200, 0, false, true⟩]

/-- Witness for C8 at a concrete accepted input. -/
theorem C8_witness :
    ([10000, 5000, 20000] : List ℚ).head? = some (10000 : ℚ) ∧
    ([10000, 5000, 20000] : List ℚ).getLast? = some ((10000 : ℚ) * (200 / 100)) :=
  C8_buy_and_hold_telescopes c8days c8sma 26 10000
    [10000, 5000, 20000] [10000, 6300, 6300] [some 10000, none, some 6300]
    (0, 100) (2, 200)
    (by norm_num [c8days]) (by norm_num [c8days]) (by norm_num [c8days])
    (by norm_num [calc_evolution, c8days, c8sma, inStateList, rawDiffs, dayDiff,
      smaDiffAssoc, alookup, cumsum, cumprod, cpList, evoRows, zipRows,
      strategyFactors, gainAssoc, groupRuns, runsCons, gainFactor, inProd, cpProd,
      cpProdButLast, baseFactor, List.find?])

/-! ### Indexing lemmas for the SMA table -/

/-- The non-flag data of an SMA row. -/
def rowData (r : SmaRow) : ℕ × ℚ × ℚ × ℕ := (r.date, r.sma, r.close, r.inM)

theorem addFlags_proj : ∀ (base : List (ℕ × ℚ × ℚ × ℕ)) (p : Option ℕ),
    (addFlags p base).map rowData = base := by
  intro base
  induction base with
  | nil => intro p; rfl
  | cons x rest ih =>
    intro p
    obtain ⟨d, s, c, i⟩ := x
    simp [addFlags, rowData, ih]

theorem zip_get?_some {α β : Type} : ∀ (a : List α) (b : List β) (j : ℕ) (x : α) (y : β),
    a.get? j = some x → b.get? j = some y → (a.zip b).get? j = some (x, y) := by
  intro a
  induction a with
  | nil => intro b j x y hx; simp at hx
  | cons z zs ih =>
    intro b j x y hx hy
    cases b with
    | nil => simp at hy
    | cons w ws =>
      cases j with
      | zero =>
        simp only [List.get?] at hx hy
        simp [List.zip_cons_cons, hx.symm, hy.symm]
        exact ⟨(Option.some.inj hx).symm ▸ rfl, (Option.some.inj hy).symm ▸ rfl⟩
      | succ n =>
        simp only [List.get?] at hx hy
        simpa [List.zip_cons_cons] using ih ws n x y hx hy

/-- C6: every SMA value is the trading-day-weighted mean of the 10-month
window: the sum of the window's monthly close-sums divided by the sum of
the window's monthly observation counts; and exactly the first 9 months
(those lacking a full 10-month trailing window) are absent from the table. -/
theorem C6_sma_weighted_mean (h : List HRow) (t : List HRow) (s : List SmaRow)
    (hok : calc_10month_sma h = Except.ok (t, s)) :
    s.length + 9 = (uniqueMonths (h.map (fun r => monthOf r.1))).length ∧
    ∀ j r, s.get? j = some r →
      r.sma =
        ((((uniqueMonths (h.map (fun r => monthOf r.1))).drop j).take 10).map (monthSum h)).sum /
        (((((uniqueMonths (h.map (fun r => monthOf r.1))).drop j).take 10).map (monthCount h)).sum : ℚ) := by
  have hnot : ¬ (uniqueMonths (h.map (fun r => monthOf r.1))).length < 10 := by
    intro hc
    simp [calc_10month_sma, hc] at hok
  simp only [calc_10month_sma, hnot, if_false, Except.ok.injEq, Prod.mk.injEq] at hok
  have hSP := congrArg (List.map rowData) hok.2
  rw [addFlags_proj] at hSP
  have hlen : s.length + 9 = (uniqueMonths (h.map (fun r => monthOf r.1))).length := by
    have hc := congrArg List.length hSP
    simp only [List.length_map, List.length_zip, List.length_drop,
      smaValues_length] at hc
    omega
  refine ⟨hlen, ?_⟩
  intro j r hjr
  obtain ⟨hj, -⟩ := List.get?_eq_some.mp hjr
  have hjw : j < (uniqueMonths (h.map (fun r => monthOf r.1))).length - 9 := by omega
  have hv : (smaValues h).get? j =
      some (((((uniqueMonths (h.map (fun r => monthOf r.1))).drop j).take 10).map (monthSum h)).sum /
        (((((uniqueMonths (h.map (fun r => monthOf r.1))).drop j).take 10).map (monthCount h)).sum : ℚ)) := by
    rw [smaValues, List.get?_map, windows10, List.get?_map, List.get?_range hjw]
    rfl
  have hdl : j < ((uniqueMonths (h.map (fun r => monthOf r.1))).drop 9).length := by
    simp only [List.length_drop]
    omega
  obtain ⟨dj, hdj⟩ : ∃ dj, (((uniqueMonths (h.map (fun r => monthOf r.1))).drop 9).map
      (lastDateOfMonth (trimHist h (((uniqueMonths (h.map (fun r => monthOf r.1))).drop 9).headD 0)))).get? j = some dj := by
    refine ⟨_, List.get?_eq_get ?_⟩
    simp only [List.length_map]
    exact hdl
  have hzip := zip_get?_some _ _ j dj _ hdj hv
  have hbase := congrArg (fun l => l.get? j) hSP
  simp only [List.get?_map, hjr, hzip, Option.map_some'] at hbase
  have hcomp := congrArg (fun q => q.2.1) (Option.some.inj hbase)
  simpa [rowData] using hcomp.symm

/-- Witness for C6 at a concrete 10-month series (single SMA row, j = 0). -/
theorem C6_witness :
    ([⟨320, 110, 200, 1, false, false⟩] : List SmaRow).length + 9 =
      (uniqueMonths (tenMonthHist.map (fun r => monthOf r.1))).length ∧
    (⟨320, 110, 200, 1, false, false⟩ : SmaRow).sma =
      ((((uniqueMonths (tenMonthHist.map (fun r => monthOf r.1))).drop 0).take 10).map
        (monthSum tenMonthHist)).sum /
      (((((uniqueMonths (tenMonthHist.map (fun r => monthOf r.1))).drop 0).take 10).map
        (monthCount tenMonthHist)).sum : ℚ) := by
  have H := C6_sma_weighted_mean tenMonthHist [(320, 200)] [⟨320, 110, 200, 1, false, false⟩]
    (by norm_num [calc_10month_sma, tenMonthHist, uniqueMonths, monthOf, smaValues, windows10,
      monthSum, monthCount, trimHist, lastDateOfMonth, closeAtDate, addFlags])
  exact ⟨H.1, H.2 0 _ rfl⟩

/-! ### Buy/sell flag invariants -/

/-- The chronological sequence of transition events in an SMA table:
`true` for a buy row, `false` for a sell row. -/
def flagEvents (s : List SmaRow) : List Bool :=
  s.filterMap (fun r => if r.buy then some true else if r.sell then some false else none)

/-- The `In` value of the last row of `base`, defaulting to `q`. -/
def lastInM (q : ℕ) : List (ℕ × ℚ × ℚ × ℕ) → ℕ
  | [] => q
  | x :: rest => lastInM x.2.2.2 rest

theorem lastInM_01 : ∀ (base : List (ℕ × ℚ × ℚ × ℕ)) (q : ℕ),
    (∀ x ∈ base, x.2.2.2 = 0 ∨ x.2.2.2 = 1) → (q = 0 ∨ q = 1) →
    lastInM q base = 0 ∨ lastInM q base = 1 := by
  intro base
  induction base with
  | nil => intro q _ hq; exact hq
  | cons x rest ih =>
    intro q h01 _
    exact ih x.2.2.2 (fun y hy => h01 y (List.mem_cons_of_mem x hy))
      (h01 x (List.mem_cons_self x rest))

theorem addFlags_count : ∀ (base : List (ℕ × ℚ × ℚ × ℕ)) (q : ℕ),
    (∀ x ∈ base, x.2.2.2 = 0 ∨ x.2.2.2 = 1) → (q = 0 ∨ q = 1) →
    ((addFlags (some q) base).countP (fun r => r.buy) : ℤ) -
      ((addFlags (some q) base).countP (fun r => r.sell) : ℤ) =
      (lastInM q base : ℤ) - (q : ℤ) := by
  intro base
  induction base with
  | nil => intro q _ _; simp [addFlags, lastInM]
  | cons x rest ih =>
    intro q h01 hq
    obtain ⟨d, s, c, i⟩ := x
    have hi : i = 0 ∨ i = 1 := by
      simpa using h01 (d, s, c, i) (List.mem_cons_self _ rest)
    have hrest : ∀ y ∈ rest, y.2.2.2 = 0 ∨ y.2.2.2 = 1 :=
      fun y hy => h01 y (List.mem_cons_of_mem _ hy)
    have IH := ih i hrest hi
    rcases hq with rfl | rfl <;> rcases hi with rfl | rfl <;>
      simp only [addFlags, List.countP_cons, lastInM] at IH ⊢ <;>
      norm_num at IH ⊢ <;> omega

theorem addFlags_alt : ∀ (base : List (ℕ × ℚ × ℚ × ℕ)) (q : ℕ),
    (∀ x ∈ base, x.2.2.2 = 0 ∨ x.2.2.2 = 1) → (q = 0 ∨ q = 1) →
    List.Chain' (fun a b => a ≠ b) (flagEvents (addFlags (some q) base)) ∧
    (∀ e, (flagEvents (addFlags (some q) base)).head? = some e → e = decide (q = 0)) := by
  intro base
  induction base with
  | nil => intro q _ _; simp [addFlags, flagEvents]
  | cons x rest ih =>
    intro q h01 hq
    obtain ⟨d, s, c, i⟩ := x
    have hi : i = 0 ∨ i = 1 := by
      simpa using h01 (d, s, c, i) (List.mem_cons_self _ rest)
    have hrest : ∀ y ∈ rest, y.2.2.2 = 0 ∨ y.2.2.2 = 1 :=
      fun y hy => h01 y (List.mem_cons_of_mem _ hy)
    have IH := ih i hrest hi
    rcases hq with rfl | rfl <;> rcases hi with rfl | rfl
    · simpa [addFlags, flagEvents] using IH
    · refine ⟨?_, ?_⟩
      · rw [show flagEvents (addFlags (some 0) ((d, s, c, 1) :: rest)) =
            true :: flagEvents (addFlags (some 1) rest) by simp [addFlags, flagEvents]]
        rw [List.chain'_cons']
        refine ⟨?_, IH.1⟩
        intro b hb
        have := IH.2 b hb
        simp at this
        simp [this]
      · intro e he
        rw [show flagEvents (addFlags (some 0) ((d, s, c, 1) :: rest)) =
            true :: flagEvents (addFlags (some 1) rest) by simp [addFlags, flagEvents]] at he
        simp at he
        simp [he]
    · refine ⟨?_, ?_⟩
      · rw [show flagEvents (addFlags (some 1) ((d, s, c, 0) :: rest)) =
            false :: flagEvents (addFlags (some 0) rest) by simp [addFlags, flagEvents]]
        rw [List.chain'_cons']
        refine ⟨?_, IH.1⟩
        intro b hb
        have := IH.2 b hb
        simp at this
        simp [this]
      · intro e he
        rw [show flagEvents (addFlags (some 1) ((d, s, c, 0) :: rest)) =
            false :: flagEvents (addFlags (some 0) rest) by simp [addFlags, flagEvents]] at he
        simp at he
        simp [he]
    · simpa [addFlags, flagEvents] using IH

theorem addFlags_not_both : ∀ (base : List (ℕ × ℚ × ℚ × ℕ)) (p : Option ℕ) (r : SmaRow),
    r ∈ addFlags p base → ¬(r.buy = true ∧ r.sell = true) := by
  intro base
  induction base with
  | nil => intro p r hr; simp [addFlags] at hr
  | cons x rest ih =>
    intro p r hr
    obtain ⟨d, s, c, i⟩ := x
    simp only [addFlags, List.mem_cons] at hr
    rcases hr with rfl | hr'
    · rintro ⟨hb, hsl⟩
      cases p with
      | none => simp at hb
      | some q =>
        simp only [decide_eq_true_eq] at hb hsl
        omega
    · exact ih (some i) r hr'

theorem addFlags_invariants (base : List (ℕ × ℚ × ℚ × ℕ))
    (h01 : ∀ x ∈ base, x.2.2.2 = 0 ∨ x.2.2.2 = 1) :
    (∀ r ∈ addFlags none base, ¬(r.buy = true ∧ r.sell = true)) ∧
    (∀ r, (addFlags none base).head? = some r → r.buy = false ∧ r.sell = false) ∧
    (((addFlags none base).countP (fun r => r.buy) : ℤ) -
       ((addFlags none base).countP (fun r => r.sell) : ℤ) ≤ 1 ∧
     ((addFlags none base).countP (fun r => r.sell) : ℤ) -
       ((addFlags none base).countP (fun r => r.buy) : ℤ) ≤ 1) ∧
    List.Chain' (fun a b => a ≠ b) (flagEvents (addFlags none base)) := by
  refine ⟨fun r hr => addFlags_not_both base none r hr, ?_, ?_, ?_⟩
  · cases base with
    | nil => intro r hr; simp [addFlags] at hr
    | cons x rest =>
      obtain ⟨d, s, c, i⟩ := x
      intro r hr
      simp only [addFlags, List.head?_cons, Option.some.injEq] at hr
      subst hr
      exact ⟨rfl, rfl⟩
  · cases base with
    | nil => simp [addFlags]
    | cons x rest =>
      obtain ⟨d, s, c, i⟩ := x
      have hi : i = 0 ∨ i = 1 := by
        simpa using h01 (d, s, c, i) (List.mem_cons_self _ rest)
      have hrest : ∀ y ∈ rest, y.2.2.2 = 0 ∨ y.2.2.2 = 1 :=
        fun y hy => h01 y (List.mem_cons_of_mem _ hy)
      have hc := addFlags_count rest i hrest hi
      have hl := lastInM_01 rest i hrest hi
      simp only [addFlags, List.countP_cons] at hc ⊢
      norm_num
      omega
  · cases base with
    | nil => simp [addFlags, flagEvents]
    | cons x rest =>
      obtain ⟨d, s, c, i⟩ := x
      have hi : i = 0 ∨ i = 1 := by
        simpa using h01 (d, s, c, i) (List.mem_cons_self _ rest)
      have hrest : ∀ y ∈ rest, y.2.2.2 = 0 ∨ y.2.2.2 = 1 :=
        fun y hy => h01 y (List.mem_cons_of_mem _ hy)
      rw [show flagEvents (addFlags none ((d, s, c, i) :: rest)) =
          flagEvents (addFlags (some i) rest) by simp [addFlags, flagEvents]]
      exact (addFlags_alt rest i hrest hi).1

/-- C7: in every SMA table produced by the signal engine, no row is both a
buy and a sell, the first row carries no flag, buy and sell counts differ
by at most one, and buy/sell events strictly alternate chronologically. -/
theorem C7_flag_invariants (h : List HRow) (t : List HRow) (s : List SmaRow)
    (hok : calc_10month_sma h = Except.ok (t, s)) :
    (∀ r ∈ s, ¬(r.buy = true ∧ r.sell = true)) ∧
    (∀ r, s.head? = some r → r.buy = false ∧ r.sell = false) ∧
    ((s.countP (fun r => r.buy) : ℤ) - (s.countP (fun r => r.sell) : ℤ) ≤ 1 ∧
      (s.countP (fun r => r.sell) : ℤ) - (s.countP (fun r => r.buy) : ℤ) ≤ 1) ∧
    List.Chain' (fun a b => a ≠ b) (flagEvents s) := by
  have hnot : ¬ (uniqueMonths (h.map (fun r => monthOf r.1))).length < 10 := by
    intro hc
    simp [calc_10month_sma, hc] at hok
  simp only [calc_10month_sma, hnot, if_false, Except.ok.injEq, Prod.mk.injEq] at hok
  obtain ⟨-, hs2⟩ := hok
  subst hs2
  apply addFlags_invariants
  intro x hx
  simp only [List.mem_map] at hx
  obtain ⟨p, -, rfl⟩ := hx
  dsimp only
  split <;> simp

/-- Witness for C7 at a concrete 10-month series. -/
theorem C7_witness :
    (∀ r ∈ ([⟨320, 110, 200, 1, false, false⟩] : List SmaRow),
      ¬(r.buy = true ∧ r.sell = true)) ∧
    (∀ r, ([⟨320, 110, 200, 1, false, false⟩] : List SmaRow).head? = some r →
      r.buy = false ∧ r.sell = false) ∧
    ((([⟨320, 110, 200, 1, false, false⟩] : List SmaRow).countP (fun r => r.buy) : ℤ) -
       (([⟨320, 110, 200, 1, false, false⟩] : List SmaRow).countP (fun r => r.sell) : ℤ) ≤ 1 ∧
     (([⟨320, 110, 200, 1, false, false⟩] : List SmaRow).countP (fun r => r.sell) : ℤ) -
       (([⟨320, 110, 200, 1, false, false⟩] : List SmaRow).countP (fun r => r.buy) : ℤ) ≤ 1) ∧
    List.Chain' (fun a b => a ≠ b)
      (flagEvents ([⟨320, 110, 200, 1, false, false⟩] : List SmaRow)) :=
  C7_flag_invariants tenMonthHist [(320, 200)] [⟨320, 110, 200, 1, false, false⟩]
    (by norm_num [calc_10month_sma, tenMonthHist, uniqueMonths, monthOf, smaValues, windows10,
      monthSum, monthCount, trimHist, lastDateOfMonth, closeAtDate, addFlags])

/-! ### The daily in/out state takes only values 0 and 1 -/

/-- Partial sums of the list starting from `a` stay in {0, 1}. -/
def ok01 : ℤ → List ℤ → Prop
  | _, [] => True
  | a, d :: l => (a + d = 0 ∨ a + d = 1) ∧ ok01 (a + d) l

theorem cumsum_mem_01 : ∀ (l : List ℤ) (a : ℤ), ok01 a l →
    ∀ x ∈ cumsum a l, x = 0 ∨ x = 1 := by
  intro l
  induction l with
  | nil => intro a _ x hx; simp [cumsum] at hx
  | cons d t ih =>
    intro a hok x hx
    rw [cumsum] at hx
    rcases List.mem_cons.mp hx with rfl | hx'
    · exact hok.1
    · exact ih (a + d) hok.2 x hx'

theorem filter_head?_eq_find? {α : Type} (p : α → Bool) : ∀ (l : List α),
    (l.filter p).head? = l.find? p := by
  intro l
  induction l with
  | nil => rfl
  | cons x t ih =>
    by_cases hx : p x
    · simp [List.filter_cons, List.find?_cons, hx]
    · simp only [Bool.not_eq_true] at hx
      simp [List.filter_cons, List.find?_cons, hx, ih]

theorem ok01_of_alt : ∀ (l : List ℤ) (a : ℤ), (a = 0 ∨ a = 1) →
    (∀ x ∈ l, x = -1 ∨ x = 0 ∨ x = 1) →
    List.Chain' (fun x y => y = -x) (l.filter (fun x => x ≠ 0)) →
    (∀ hh, (l.filter (fun x => x ≠ 0)).head? = some hh → (a + hh = 0 ∨ a + hh = 1)) →
    ok01 a l := by
  intro l
  induction l with
  | nil => intro a _ _ _ _; trivial
  | cons d t ih =>
    intro a ha hmem hch hhd
    by_cases hd : d = 0
    · subst hd
      refine ⟨by simpa using ha, ?_⟩
      rw [add_zero]
      have hft : (0 :: t).filter (fun x => x ≠ 0) = t.filter (fun x => x ≠ 0) := by simp
      rw [hft] at hch hhd
      exact ih a ha (fun x hx => hmem x (List.mem_cons_of_mem _ hx)) hch hhd
    · have hf : (d :: t).filter (fun x => x ≠ 0) = d :: t.filter (fun x => x ≠ 0) := by
        simp [hd]
      have had : a + d = 0 ∨ a + d = 1 := hhd d (by rw [hf]; rfl)
      refine ⟨had, ?_⟩
      rw [hf] at hch
      apply ih (a + d) had (fun x hx => hmem x (List.mem_cons_of_mem _ hx))
      · exact hch.tail
      · intro hh hhh
        have hneg : hh = -d := (List.chain'_cons'.mp hch).1 hh hhh
        subst hneg
        simpa using ha

theorem alookup_eq_none {β : Type} : ∀ (ps : List (ℕ × β)) (d : ℕ),
    (∀ p ∈ ps, p.1 ≠ d) → alookup d ps = none := by
  intro ps
  induction ps with
  | nil => intro d _; rfl
  | cons p pt ih =>
    intro d hne
    obtain ⟨k, v⟩ := p
    have hk : k ≠ d := hne (k, v) (List.mem_cons_self _ pt)
    simp only [alookup, hk, if_false]
    exact ih d (fun q hq => hne q (List.mem_cons_of_mem _ hq))

theorem alookup_mem {β : Type} : ∀ (ps : List (ℕ × β)) (d : ℕ) (v : β),
    alookup d ps = some v → (d, v) ∈ ps := by
  intro ps
  induction ps with
  | nil => intro d v hv; simp [alookup] at hv
  | cons p pt ih =>
    intro d v hv
    obtain ⟨k, w⟩ := p
    by_cases hk : k = d
    · subst hk
      simp only [alookup, if_true] at hv
      simp [Option.some.inj hv]
    · simp only [alookup, hk, if_false] at hv
      exact List.mem_cons_of_mem _ (ih d v hv)

theorem lookup_map_filter : ∀ (ds : List ℕ) (ps : List (ℕ × ℤ)),
    List.Pairwise (fun a b => a < b) ds →
    List.Pairwise (fun a b => a < b) (ps.map (fun p => p.1)) →
    (∀ p ∈ ps, p.1 ∈ ds) →
    ((ds.map (fun d => (alookup d ps).getD 0)).filter (fun x => x ≠ 0)) =
      ((ps.map (fun p => p.2)).filter (fun x => x ≠ 0)) := by
  intro ds
  induction ds with
  | nil =>
    intro ps _ _ hsub
    cases ps with
    | nil => rfl
    | cons p pt => exact absurd (hsub p (List.mem_cons_self p pt)) (by simp)
  | cons d dt ih =>
    intro ps hds hps hsub
    cases ps with
    | nil =>
      simp only [alookup, Option.getD_none, List.map_nil, List.filter_nil]
      rw [List.filter_eq_nil_iff]
      intro a ha
      rcases List.mem_map.mp ha with ⟨-, -, rfl⟩
      simp
    | cons p pt =>
      obtain ⟨k, v⟩ := p
      by_cases hdk : k = d
      · subst hdk
        have hl0 : alookup k ((k, v) :: pt) = some v := by simp [alookup]
        have hmap : dt.map (fun x => (alookup x ((k, v) :: pt)).getD 0) =
            dt.map (fun x => (alookup x pt).getD 0) := by
          apply List.map_congr_left
          intro x hx
          have hkx : k < x := (List.pairwise_cons.mp hds).1 x hx
          simp [alookup, ne_of_lt hkx]
        have hsub' : ∀ q ∈ pt, q.1 ∈ dt := by
          intro q hq
          have hmem := hsub q (List.mem_cons_of_mem _ hq)
          have hgt : k < q.1 :=
            (List.pairwise_cons.mp hps).1 q.1 (List.mem_map_of_mem _ hq)
          rcases List.mem_cons.mp hmem with h1 | h2
          · exact absurd h1 (ne_of_gt hgt)
          · exact h2
        have hrec := ih pt (List.pairwise_cons.mp hds).2 (List.pairwise_cons.mp hps).2 hsub'
        simp only [List.map_cons, hl0, Option.getD_some, hmap, List.filter_cons, hrec]
      · have hk_mem : k ∈ dt := by
          have hmem := hsub (k, v) (List.mem_cons_self _ pt)
          rcases List.mem_cons.mp hmem with h1 | h2
          · exact absurd h1 hdk
          · exact h2
        have hdk_lt : d < k := (List.pairwise_cons.mp hds).1 k hk_mem
        have hnone : alookup d ((k, v) :: pt) = none := by
          apply alookup_eq_none
          intro q hq
          rcases List.mem_cons.mp hq with rfl | hq'
          · exact ne_of_gt hdk_lt
          · have hkq : k < q.1 :=
              (List.pairwise_cons.mp hps).1 q.1 (List.mem_map_of_mem _ hq')
            exact ne_of_gt (lt_trans hdk_lt hkq)
        have hsub' : ∀ q ∈ (k, v) :: pt, q.1 ∈ dt := by
          intro q hq
          rcases List.mem_cons.mp hq with rfl | hq'
          · exact hk_mem
          · have hkq : k < q.1 :=
              (List.pairwise_cons.mp hps).1 q.1 (List.mem_map_of_mem _ hq')
            have hmem := hsub q (List.mem_cons_of_mem _ hq')
            rcases List.mem_cons.mp hmem with h1 | h2
            · exact absurd h1 (ne_of_gt (lt_trans hdk_lt hkq))
            · exact h2
        simp only [List.map_cons, hnone, Option.getD_none]
        rw [List.filter_cons_of_neg (by simp)]
        simpa using ih ((k, v) :: pt) (List.pairwise_cons.mp hds).2 hps hsub'

theorem smaDiffAssoc_keys : ∀ (sma : List SmaRow),
    (smaDiffAssoc sma).map (fun p => p.1) = sma.tail.map (fun r => r.date)
  | [] => rfl
  | [_] => rfl
  | a :: b :: t => by
    simp only [smaDiffAssoc, List.map_cons, List.tail_cons]
    rw [smaDiffAssoc_keys (b :: t)]
    simp

theorem smaDiffAssoc_val_mem : ∀ (sma : List SmaRow),
    (∀ r ∈ sma, r.inM = 0 ∨ r.inM = 1) →
    ∀ p ∈ smaDiffAssoc sma, p.2 = -1 ∨ p.2 = 0 ∨ p.2 = 1
  | [] => by intro _ p hp; simp [smaDiffAssoc] at hp
  | [_] => by intro _ p hp; simp [smaDiffAssoc] at hp
  | a :: b :: t => by
    intro h01 p hp
    simp only [smaDiffAssoc, List.mem_cons] at hp
    rcases hp with rfl | hp'
    · have ha := h01 a (by simp)
      have hb := h01 b (by simp)
      rcases ha with ha | ha <;> rcases hb with hb | hb <;> simp [ha, hb]
    · exact smaDiffAssoc_val_mem (b :: t)
        (fun r hr => h01 r (List.mem_cons_of_mem a hr)) p hp'

/-- Row-to-row `In` differences starting from previous value `q`. -/
def diffsFrom (q : ℕ) : List SmaRow → List ℤ
  | [] => []
  | r :: t => ((r.inM : ℤ) - (q : ℤ)) :: diffsFrom r.inM t

theorem smaDiffAssoc_vals : ∀ (a : SmaRow) (t : List SmaRow),
    (smaDiffAssoc (a :: t)).map (fun p => p.2) = diffsFrom a.inM t
  | _, [] => rfl
  | a, b :: t => by
    simp only [smaDiffAssoc, List.map_cons, diffsFrom]
    rw [smaDiffAssoc_vals b t]

theorem diffsFrom_alt : ∀ (t : List SmaRow) (q : ℕ), (q = 0 ∨ q = 1) →
    (∀ r ∈ t, r.inM = 0 ∨ r.inM = 1) →
    List.Chain' (fun x y => y = -x) ((diffsFrom q t).filter (fun x => x ≠ 0)) ∧
    (∀ hh, ((diffsFrom q t).filter (fun x => x ≠ 0)).head? = some hh →
      hh = if q = 0 then 1 else -1) := by
  intro t
  induction t with
  | nil => intro q _ _; simp [diffsFrom]
  | cons r t ih =>
    intro q hq h01
    have hr : r.inM = 0 ∨ r.inM = 1 := h01 r (List.mem_cons_self _ _)
    have ht : ∀ x ∈ t, x.inM = 0 ∨ x.inM = 1 :=
      fun x hx => h01 x (List.mem_cons_of_mem _ hx)
    have IH := ih r.inM hr ht
    rcases hq with rfl | rfl <;> rcases hr with hr | hr
    · rw [show diffsFrom 0 (r :: t) = 0 :: diffsFrom r.inM t by simp [diffsFrom, hr]]
      rw [show ((0 : ℤ) :: diffsFrom r.inM t).filter (fun x => x ≠ 0) =
          (diffsFrom r.inM t).filter (fun x => x ≠ 0) by simp]
      refine ⟨IH.1, ?_⟩
      intro hh hhh
      have := IH.2 hh hhh
      rwa [if_pos hr] at this
    · rw [show diffsFrom 0 (r :: t) = 1 :: diffsFrom r.inM t by simp [diffsFrom, hr]]
      rw [show ((1 : ℤ) :: diffsFrom r.inM t).filter (fun x => x ≠ 0) =
          1 :: (diffsFrom r.inM t).filter (fun x => x ≠ 0) by simp]
      constructor
      · rw [List.chain'_cons']
        refine ⟨?_, IH.1⟩
        intro y hy
        have hy' := IH.2 y hy
        rw [if_neg (by simp [hr])] at hy'
        simp [hy']
      · intro hh hhh
        simp only [List.head?_cons, Option.some.injEq] at hhh
        simp [hhh.symm]
    · rw [show diffsFrom 1 (r :: t) = (-1) :: diffsFrom r.inM t by simp [diffsFrom, hr]]
      rw [show ((-1 : ℤ) :: diffsFrom r.inM t).filter (fun x => x ≠ 0) =
          (-1) :: (diffsFrom r.inM t).filter (fun x => x ≠ 0) by simp]
      constructor
      · rw [List.chain'_cons']
        refine ⟨?_, IH.1⟩
        intro y hy
        have hy' := IH.2 y hy
        rw [if_pos hr] at hy'
        simp [hy']
      · intro hh hhh
        simp only [List.head?_cons, Option.some.injEq] at hhh
        simp [hhh.symm]
    · rw [show diffsFrom 1 (r :: t) = 0 :: diffsFrom r.inM t by simp [diffsFrom, hr]]
      rw [show ((0 : ℤ) :: diffsFrom r.inM t).filter (fun x => x ≠ 0) =
          (diffsFrom r.inM t).filter (fun x => x ≠ 0) by simp]
      refine ⟨IH.1, ?_⟩
      intro hh hhh
      have := IH.2 hh hhh
      rwa [if_neg (by simp [hr])] at this

theorem find_order : ∀ (days : List HRow) (sma : List SmaRow),
    List.Pairwise (fun a b => a.1 < b.1) days →
    (∀ r ∈ days, dayDiff sma r.1 = -1 ∨ dayDiff sma r.1 = 0 ∨ dayDiff sma r.1 = 1) →
    ∀ fs fb, days.find? (fun r => dayDiff sma r.1 = -1) = some fs →
      days.find? (fun r => dayDiff sma r.1 = 1) = some fb →
      (rawDiffs days sma).find? (fun x => x ≠ 0) =
        some (if fs.1 < fb.1 then -1 else 1) := by
  intro days
  induction days with
  | nil => intro sma _ _ fs fb hfs _; simp at hfs
  | cons d t ih =>
    intro sma hpw hmem fs fb hfs hfb
    rcases hmem d (List.mem_cons_self _ _) with hd | hd | hd
    · simp only [List.find?_cons, hd] at hfs hfb
      norm_num at hfs hfb
      subst hfs
      have hfb_mem : fb ∈ t := List.mem_of_find?_eq_some hfb
      have hlt : d.1 < fb.1 := (List.pairwise_cons.mp hpw).1 fb hfb_mem
      rw [if_pos hlt]
      rw [show rawDiffs (d :: t) sma = dayDiff sma d.1 :: rawDiffs t sma from rfl]
      simp [List.find?_cons, hd]
    · simp only [List.find?_cons, hd] at hfs hfb
      norm_num at hfs hfb
      rw [show rawDiffs (d :: t) sma = dayDiff sma d.1 :: rawDiffs t sma from rfl]
      rw [hd]
      have hstep : List.find? (fun x => x ≠ 0) ((0 : ℤ) :: rawDiffs t sma) =
          List.find? (fun x => x ≠ 0) (rawDiffs t sma) := by
        simp [List.find?_cons]
      rw [hstep]
      exact ih sma (List.pairwise_cons.mp hpw).2
        (fun r hr => hmem r (List.mem_cons_of_mem _ hr)) fs fb hfs hfb
    · simp only [List.find?_cons, hd] at hfs hfb
      norm_num at hfs hfb
      subst hfb
      have hfs_mem : fs ∈ t := List.mem_of_find?_eq_some hfs
      have hlt : d.1 < fs.1 := (List.pairwise_cons.mp hpw).1 fs hfs_mem
      rw [if_neg (by omega)]
      rw [show rawDiffs (d :: t) sma = dayDiff sma d.1 :: rawDiffs t sma from rfl]
      simp [List.find?_cons, hd]

/-- C10: on every accepted input whose SMA table is 0/1-valued with
chronologically sorted dates all present among the (sorted) daily dates
and strictly after the first day, the daily exposure state produced by the
diff/initial-fix/cumsum pipeline takes only the values 0 and 1. -/
theorem C10_in_state_binary (days : List HRow) (sma : List SmaRow) (tax ini : ℚ)
    (bh st : List ℚ) (fl : List (Option ℚ))
    (hd : List.Pairwise (fun a b => a.1 < b.1) days)
    (h01 : ∀ r ∈ sma, r.inM = 0 ∨ r.inM = 1)
    (hsd : List.Pairwise (fun a b => a < b) (sma.map (fun r => r.date)))
    (hsub : ∀ p ∈ smaDiffAssoc sma, p.1 ∈ days.map (fun r => r.1))
    (hfirst : ∀ d0, days.head? = some d0 → ∀ p ∈ smaDiffAssoc sma, d0.1 < p.1)
    (hok : calc_evolution days sma tax ini = Except.ok (bh, st, fl)) :
    ∀ x ∈ inStateList days sma, x = 0 ∨ x = 1 := by
  rcases hfs : days.find? (fun r => dayDiff sma r.1 = -1) with _ | fs
  · rw [calc_evolution, hfs] at hok; simp at hok
  rcases hfb : days.find? (fun r => dayDiff sma r.1 = 1) with _ | fb
  · rw [calc_evolution, hfs, hfb] at hok; simp at hok
  have hkeys : List.Pairwise (fun a b => a < b) ((smaDiffAssoc sma).map (fun p => p.1)) := by
    rw [smaDiffAssoc_keys]
    cases sma with
    | nil => simp
    | cons a u =>
      simp only [List.tail_cons]
      exact (List.pairwise_cons.mp (by simpa using hsd)).2
  have hvals : ∀ x ∈ rawDiffs days sma, x = -1 ∨ x = 0 ∨ x = 1 := by
    intro x hx
    rcases List.mem_map.mp hx with ⟨r, -, rfl⟩
    unfold dayDiff
    rcases hl : alookup r.1 (smaDiffAssoc sma) with _ | v
    · simp
    · simp only [Option.getD_some]
      exact smaDiffAssoc_val_mem sma h01 (r.1, v) (alookup_mem _ _ _ hl)
  have htrans : (rawDiffs days sma).filter (fun x => x ≠ 0) =
      ((smaDiffAssoc sma).map (fun p => p.2)).filter (fun x => x ≠ 0) := by
    have H := lookup_map_filter (days.map (fun r => r.1)) (smaDiffAssoc sma)
      (List.pairwise_map.mpr hd) hkeys hsub
    rw [List.map_map] at H
    exact H
  have hchain : List.Chain' (fun x y => y = -x)
      ((rawDiffs days sma).filter (fun x => x ≠ 0)) := by
    rw [htrans]
    cases sma with
    | nil => simp [smaDiffAssoc]
    | cons a u =>
      rw [smaDiffAssoc_vals]
      exact (diffsFrom_alt u a.inM (h01 a (List.mem_cons_self _ _))
        (fun r hr => h01 r (List.mem_cons_of_mem _ hr))).1
  have hmemd : ∀ r ∈ days, dayDiff sma r.1 = -1 ∨ dayDiff sma r.1 = 0 ∨ dayDiff sma r.1 = 1 :=
    fun r hr => hvals _ (List.mem_map_of_mem _ hr)
  have hhead : ((rawDiffs days sma).filter (fun x => x ≠ 0)).head? =
      some (if fs.1 < fb.1 then -1 else 1) := by
    rw [filter_head?_eq_find?]
    exact find_order days sma hd hmemd fs fb hfs hfb
  by_cases hcmp : fs.1 < fb.1
  · have hfs_mem := List.mem_of_find?_eq_some hfs
    cases days with
    | nil => simp at hfs_mem
    | cons d0 dt =>
      have h0 : dayDiff sma d0.1 = 0 := by
        unfold dayDiff
        rw [alookup_eq_none]
        · rfl
        · intro p hp
          exact ne_of_gt (hfirst d0 rfl p hp)
      have hraw : rawDiffs (d0 :: dt) sma = 0 :: rawDiffs dt sma := by
        simp [rawDiffs, h0]
      have hfiltr : (rawDiffs dt sma).filter (fun x => x ≠ 0) =
          (rawDiffs (d0 :: dt) sma).filter (fun x => x ≠ 0) := by
        rw [hraw]; simp
      intro x hx
      simp only [inStateList, hfs, hfb, if_pos hcmp] at hx
      rw [hraw] at hx
      simp only [List.set_cons_zero] at hx
      apply cumsum_mem_01 _ 0 ?_ x hx
      simp only [ok01]
      refine ⟨by norm_num, ?_⟩
      have h1 : (0 : ℤ) + 1 = 1 := by norm_num
      rw [h1]
      apply ok01_of_alt
      · right; rfl
      · intro y hy
        apply hvals
        rw [hraw]
        exact List.mem_cons_of_mem _ hy
      · rw [hfiltr]
        exact hchain
      · intro hh hhh
        rw [hfiltr] at hhh
        have hcomb := hhead.symm.trans hhh
        rw [if_pos hcmp] at hcomb
        have hval := Option.some.inj hcomb
        rw [← hval]
        norm_num
  · intro x hx
    simp only [inStateList, hfs, hfb, if_neg hcmp] at hx
    apply cumsum_mem_01 _ 0 ?_ x hx
    apply ok01_of_alt _ 0 (by norm_num) hvals hchain
    intro hh hhh
    have hcomb := hhead.symm.trans hhh
    rw [if_neg hcmp] at hcomb
    have hval := Option.some.inj hcomb
    rw [← hval]
    norm_num

/-- Witness for C10 at a concrete accepted input and a concrete state value. -/
theorem C10_witness :
    (1 : ℤ) ∈ inStateList c1days c1sma ∧ ((1 : ℤ) = 0 ∨ (1 : ℤ) = 1) := by
  have hmem : (1 : ℤ) ∈ inStateList c1days c1sma := by
    norm_num [inStateList, c1days, c1sma, rawDiffs, dayDiff, smaDiffAssoc, alookup,
      cumsum, List.find?]
  refine ⟨hmem, ?_⟩
  exact C10_in_state_binary c1days c1sma 26 10000
    [10000, 10000, 10000, 10000, 10000, 20000]
    [10000, 10000, 10000, 10000, 10000, 17400]
    [none, none, none, some 10000, some 10000, none]
    (by norm_num [c1days, List.pairwise_cons])
    (by norm_num [c1sma])
    (by norm_num [c1sma, List.pairwise_cons])
    (by norm_num [c1sma, c1days, smaDiffAssoc])
    (by norm_num [c1sma, c1days, smaDiffAssoc])
    (by norm_num [calc_evolution, c1days, c1sma, inStateList, rawDiffs, dayDiff, smaDiffAssoc,
      alookup, cumsum, cumprod, cpList, evoRows, zipRows, strategyFactors, gainAssoc, groupRuns,
      runsCons, gainFactor, inProd, cpProd, cpProdButLast, baseFactor, List.find?])
    1 hmem

/-! ### Per-segment tax arithmetic -/

theorem getLast?_mem {α : Type} : ∀ (l : List α) (a : α), l.getLast? = some a → a ∈ l := by
  intro l
  induction l with
  | nil => intro a h; simp at h
  | cons x t ih =>
    intro a h
    cases t with
    | nil =>
      simp only [List.getLast?_singleton, Option.some.injEq] at h
      simp [h]
    | cons y u =>
      rw [getLast?_cons_of_ne_nil x (y :: u) (by simp)] at h
      exact List.mem_cons_of_mem x (ih a h)

theorem prod_dropLast : ∀ (l : List ℚ) (x : ℚ), l.getLast? = some x →
    l.prod = l.dropLast.prod * x := by
  intro l
  induction l with
  | nil => intro x h; simp at h
  | cons a t ih =>
    intro x h
    cases t with
    | nil =>
      simp only [List.getLast?_singleton, Option.some.injEq] at h
      simp [h]
    | cons b u =>
      rw [getLast?_cons_of_ne_nil a (b :: u) (by simp)] at h
      rw [List.prod_cons, ih x h]
      show _ = (a :: (b :: u).dropLast).prod * x
      rw [List.prod_cons, mul_assoc]

/-- C2 (amended): a run with `In` product 0 (an out-of-market segment) gets
factor 1; an in-market segment with compounded factor exactly 1 keeps its
untaxed terminal factor; with factor above 1 the terminal factor is strictly
reduced by the tax; with factor below 1 it is strictly increased (a tax
rebate), not left untaxed. -/
theorem C2_amended_segment_tax_cases (tax : ℚ) (g : List EvoRow) (d : EvoRow)
    (hg : g.getLast? = some d)
    (hpos : ∀ r ∈ g, 0 < r.cp)
    (ht0 : 0 < tax) (ht1 : tax ≤ 100) :
    (inProd g = 0 → gainFactor tax g = 1) ∧
    ((∀ r ∈ g, r.inS = 1) → cpProd g = 1 → gainFactor tax g = d.cp) ∧
    ((∀ r ∈ g, r.inS = 1) → 1 < cpProd g → gainFactor tax g < d.cp) ∧
    ((∀ r ∈ g, r.inS = 1) → cpProd g < 1 → d.cp < gainFactor tax g) := by
  have hQpos : 0 < cpProdButLast g := by
    apply List.prod_pos
    intro a ha
    have hmem : a ∈ g.map (fun r => r.cp) := (List.dropLast_sublist _).subset ha
    rcases List.mem_map.mp hmem with ⟨r, hr, rfl⟩
    exact hpos r hr
  have hPd : cpProd g = cpProdButLast g * d.cp := by
    apply prod_dropLast
    rw [getLast?_map, hg]
    rfl
  have hInOf : (∀ r ∈ g, r.inS = 1) → ¬ inProd g = 0 := by
    intro hall
    have h1 : (g.map (fun r => r.inS)).prod = 1 := by
      apply List.prod_eq_one
      intro x hx
      rcases List.mem_map.mp hx with ⟨r, hr, rfl⟩
      exact hall r hr
    unfold inProd
    rw [h1]
    norm_num
  refine ⟨?_, ?_, ?_, ?_⟩
  · intro h0
    simp [gainFactor, h0]
  · intro hall hP1
    rw [gainFactor, if_neg (hInOf hall)]
    rw [hP1] at hPd ⊢
    have hd_eq : d.cp = 1 / cpProdButLast g := by
      rw [eq_div_iff (ne_of_gt hQpos)]
      linear_combination (-1 : ℚ) * hPd
    rw [hd_eq]
    norm_num
  · intro hall hPgt
    rw [gainFactor, if_neg (hInOf hall)]
    have htaxed : (cpProd g - 1) * (1 - tax / 100) + 1 < cpProd g := by nlinarith
    have hd_eq : d.cp = cpProd g / cpProdButLast g := by
      rw [eq_div_iff (ne_of_gt hQpos)]
      linear_combination (-1 : ℚ) * hPd
    rw [hd_eq]
    exact (div_lt_div_right hQpos).mpr htaxed
  · intro hall hPlt
    rw [gainFactor, if_neg (hInOf hall)]
    have htaxed : cpProd g < (cpProd g - 1) * (1 - tax / 100) + 1 := by nlinarith
    have hd_eq : d.cp = cpProd g / cpProdButLast g := by
      rw [eq_div_iff (ne_of_gt hQpos)]
      linear_combination (-1 : ℚ) * hPd
    rw [hd_eq]
    exact (div_lt_div_right hQpos).mpr htaxed

/-! ### Run-length grouping lemmas -/

theorem runsCons_join (x : EvoRow) (gs : List (List EvoRow)) :
    (runsCons x gs).join = x :: gs.join := by
  cases gs with
  | nil => simp [runsCons]
  | cons g gs' =>
    cases g with
    | nil => simp [runsCons]
    | cons y ys =>
      simp only [runsCons]
      split <;> simp

theorem groupRuns_join : ∀ (l : List EvoRow), (groupRuns l).join = l := by
  intro l
  induction l with
  | nil => rfl
  | cons x xs ih => rw [groupRuns, runsCons_join, ih]

theorem groupRuns_ne_nil_mem : ∀ (l : List EvoRow), ∀ g ∈ groupRuns l, g ≠ [] := by
  intro l
  induction l with
  | nil => intro g hg; simp [groupRuns] at hg
  | cons x xs ih =>
    intro g hg
    rw [groupRuns] at hg
    rcases hgs : groupRuns xs with _ | ⟨g1, gs'⟩
    · rw [hgs] at hg
      simp only [runsCons, List.mem_singleton] at hg
      simp [hg]
    · rw [hgs] at hg
      cases g1 with
      | nil =>
        simp only [runsCons] at hg
        rcases List.mem_cons.mp hg with rfl | hg'
        · simp
        · exact ih g (hgs ▸ List.mem_cons_of_mem _ hg')
      | cons y ys =>
        simp only [runsCons] at hg
        split at hg
        · rcases List.mem_cons.mp hg with rfl | hg'
          · simp
          · exact ih g (hgs ▸ List.mem_cons_of_mem _ hg')
        · rcases List.mem_cons.mp hg with rfl | hg'
          · simp
          · exact ih g (hgs ▸ hg')

theorem groupRuns_const : ∀ (l : List EvoRow), ∀ g ∈ groupRuns l,
    ∀ a ∈ g, ∀ b ∈ g, a.inS = b.inS := by
  intro l
  induction l with
  | nil => intro g hg; simp [groupRuns] at hg
  | cons x xs ih =>
    intro g hg
    rw [groupRuns] at hg
    rcases hgs : groupRuns xs with _ | ⟨g1, gs'⟩
    · rw [hgs] at hg
      simp only [runsCons, List.mem_singleton] at hg
      subst hg
      intro a ha b hb
      simp only [List.mem_singleton] at ha hb
      rw [ha, hb]
    · rw [hgs] at hg
      cases g1 with
      | nil =>
        simp only [runsCons] at hg
        rcases List.mem_cons.mp hg with rfl | hg'
        · intro a ha b hb
          simp only [List.mem_singleton] at ha hb
          rw [ha, hb]
        · exact ih g (hgs ▸ List.mem_cons_of_mem _ hg')
      | cons y ys =>
        simp only [runsCons] at hg
        split at hg
        · rcases List.mem_cons.mp hg with rfl | hg'
          · rename_i hxy
            have hall : ∀ a ∈ x :: y :: ys, a.inS = y.inS := by
              intro a ha
              rcases List.mem_cons.mp ha with rfl | ha'
              · exact hxy
              · exact ih (y :: ys) (hgs ▸ List.mem_cons_self _ _) a ha' y
                  (List.mem_cons_self _ _)
            intro a ha b hb
            rw [hall a ha, hall b hb]
          · exact ih g (hgs ▸ List.mem_cons_of_mem _ hg')
        · rcases List.mem_cons.mp hg with rfl | hg'
          · intro a ha b hb
            simp only [List.mem_singleton] at ha hb
            rw [ha, hb]
          · exact ih g (hgs ▸ hg')

theorem join_getLast? : ∀ (L : List (List EvoRow)), (∀ g ∈ L, g ≠ []) →
    L.join.getLast? = (L.getLastD []).getLast? := by
  intro L
  induction L with
  | nil => intro _; rfl
  | cons g L' ih =>
    intro hne
    cases L' with
    | nil => simp
    | cons g1 L'' =>
      have hg1 : g1 ≠ [] := hne g1 (by simp)
      have hjoin_ne : ((g1 :: L'').join) ≠ [] := by
        cases g1 with
        | nil => exact absurd rfl hg1
        | cons z zs => simp
      rw [show (g :: g1 :: L'').join = g ++ (g1 :: L'').join from rfl]
      rw [List.getLast?_append_of_ne_nil g hjoin_ne]
      rw [ih (fun g' hg' => hne g' (List.mem_cons_of_mem _ hg'))]
      rfl

theorem getLastD_mem {α : Type} : ∀ (l : List α) (d : α), l ≠ [] → l.getLastD d ∈ l := by
  intro l
  induction l with
  | nil => intro d h; exact absurd rfl h
  | cons x t ih =>
    intro d _
    cases t with
    | nil => simp [List.getLastD]
    | cons y u =>
      rw [show (x :: y :: u).getLastD d = (y :: u).getLastD x from rfl]
      exact List.mem_cons_of_mem x (ih x (by simp))

theorem sel_last_sublist : ∀ (L : List (List EvoRow)), (∀ g ∈ L, g ≠ []) →
    (L.map (fun g => (g.getLastD default).date)).Sublist
      (L.join.map (fun r => r.date)) := by
  intro L
  induction L with
  | nil => intro _; simp
  | cons g L' ih =>
    intro hne
    rw [show (g :: L').join = g ++ L'.join from rfl, List.map_cons, List.map_append]
    rw [show ((g.getLastD default).date :: L'.map (fun g => (g.getLastD default).date)) =
        [(g.getLastD default).date] ++ L'.map (fun g => (g.getLastD default).date) from rfl]
    apply List.Sublist.append
    · rw [List.singleton_sublist]
      exact List.mem_map_of_mem _ (getLastD_mem g default (hne g (List.mem_cons_self _ _)))
    · exact ih (fun g' h => hne g' (List.mem_cons_of_mem _ h))

theorem exists_getLast? {α : Type} : ∀ (l : List α), l ≠ [] → ∃ z, l.getLast? = some z
  | [], h => absurd rfl h
  | [x], _ => ⟨x, by simp⟩
  | x :: y :: u, _ => by
    obtain ⟨z, hz⟩ := exists_getLast? (y :: u) (by simp)
    exact ⟨z, by rw [getLast?_cons_of_ne_nil x (y :: u) (by simp)]; exact hz⟩

theorem alookup_of_nodup {β : Type} : ∀ (ps : List (ℕ × β)) (k : ℕ) (v : β),
    (ps.map (fun p => p.1)).Nodup → (k, v) ∈ ps → alookup k ps = some v := by
  intro ps
  induction ps with
  | nil => intro k v _ hm; simp at hm
  | cons p pt ih =>
    intro k v hnd hm
    obtain ⟨k', v'⟩ := p
    rcases List.mem_cons.mp hm with heq | hm'
    · injection heq with h1 h2
      subst h1
      subst h2
      simp [alookup]
    · have hk' : ¬ k' = k := by
        intro he
        subst he
        have hmem : k' ∈ pt.map (fun p => p.1) := List.mem_map_of_mem _ hm'
        exact (List.nodup_cons.mp (by simpa using hnd)).1 hmem
      simp only [alookup, hk', if_false]
      exact ih k v (List.nodup_cons.mp (by simpa using hnd)).2 hm'

theorem cumsum_length : ∀ (l : List ℤ) (a : ℤ), (cumsum a l).length = l.length := by
  intro l
  induction l with
  | nil => intro a; rfl
  | cons d t ih => intro a; simp [cumsum, ih]

theorem rawDiffs_length (days : List HRow) (sma : List SmaRow) :
    (rawDiffs days sma).length = days.length := by
  simp [rawDiffs]

theorem inStateList_length (days : List HRow) (sma : List SmaRow) :
    (inStateList days sma).length = days.length := by
  simp only [inStateList]
  split
  · split <;> simp [cumsum_length, List.length_set, rawDiffs_length]
  · simp [cumsum_length, rawDiffs_length]

theorem cpList_length : ∀ (days : List HRow), (cpList days).length = days.length := by
  intro days
  cases days with
  | nil => rfl
  | cons d rest =>
    simp only [cpList, List.length_cons, List.length_map, List.length_zip,
      List.length_cons]
    omega

theorem zipRows_length : ∀ (a : List ℤ) (b : List ℚ) (c : List ℕ),
    a.length = c.length → b.length = c.length → (zipRows a b c).length = c.length := by
  intro a
  induction a with
  | nil =>
    intro b c h1 _
    cases c with
    | nil => cases b with | nil => rfl | cons => rfl
    | cons => simp at h1
  | cons i il ih =>
    intro b c h1 h2
    cases c with
    | nil => simp at h1
    | cons d dl =>
      cases b with
      | nil => simp at h2
      | cons x cl =>
        rw [show zipRows (i :: il) (x :: cl) (d :: dl) = ⟨i, x, d⟩ :: zipRows il cl dl from rfl]
        simp only [List.length_cons] at h1 h2 ⊢
        rw [ih cl dl (by omega) (by omega)]

theorem zipRows_map_date : ∀ (c : List ℕ) (a : List ℤ) (b : List ℚ),
    a.length = c.length → b.length = c.length →
    (zipRows a b c).map (fun r => r.date) = c := by
  intro c
  induction c with
  | nil =>
    intro a b h1 _
    cases a with
    | nil => cases b with | nil => rfl | cons => rfl
    | cons => simp at h1
  | cons d dl ih =>
    intro a b h1 h2
    cases a with
    | nil => simp at h1
    | cons i il =>
      cases b with
      | nil => simp at h2
      | cons x cl =>
        rw [show zipRows (i :: il) (x :: cl) (d :: dl) = ⟨i, x, d⟩ :: zipRows il cl dl from rfl]
        simp only [List.map_cons]
        simp only [List.length_cons] at h1 h2
        rw [ih il cl (by omega) (by omega)]

theorem zipRows_getLast? : ∀ (c : List ℕ) (a : List ℤ) (b : List ℚ) (i : ℤ) (x : ℚ) (d : ℕ),
    a.length = c.length → b.length = c.length →
    a.getLast? = some i → b.getLast? = some x → c.getLast? = some d →
    (zipRows a b c).getLast? = some ⟨i, x, d⟩ := by
  intro c
  induction c with
  | nil => intro a b i x d _ _ _ _ hc; simp at hc
  | cons d0 dl ih =>
    intro a b i x d h1 h2 ha hb hc
    cases a with
    | nil => simp at h1
    | cons i0 il =>
    cases b with
    | nil => simp at h2
    | cons x0 cl =>
    cases dl with
    | nil =>
      cases il with
      | cons => simp at h1
      | nil =>
      cases cl with
      | cons => simp at h2
      | nil =>
      simp only [List.getLast?_singleton, Option.some.injEq] at ha hb hc
      subst ha
      subst hb
      subst hc
      rfl
    | cons d1 dl' =>
      have h1' : il.length = (d1 :: dl').length := by simpa using h1
      have h2' : cl.length = (d1 :: dl').length := by simpa using h2
      have hil_ne : il ≠ [] := by
        intro he
        rw [he] at h1'
        simp at h1'
      have hcl_ne : cl ≠ [] := by
        intro he
        rw [he] at h2'
        simp at h2'
      rw [getLast?_cons_of_ne_nil _ _ hil_ne] at ha
      rw [getLast?_cons_of_ne_nil _ _ hcl_ne] at hb
      rw [getLast?_cons_of_ne_nil _ _ (by simp)] at hc
      rw [show zipRows (i0 :: il) (x0 :: cl) (d0 :: d1 :: dl') =
          ⟨i0, x0, d0⟩ :: zipRows il cl (d1 :: dl') from rfl]
      rw [getLast?_cons_of_ne_nil]
      · exact ih il cl i x d h1' h2' ha hb hc
      · have hlen := zipRows_length il cl (d1 :: dl') h1' h2'
        intro he
        rw [he] at hlen
        simp at hlen

theorem evoRows_ne_nil (days : List HRow) (sma : List SmaRow) (h : days ≠ []) :
    evoRows days sma ≠ [] := by
  intro he
  have hlen := congrArg List.length he
  rw [evoRows, zipRows_length _ _ _ (by rw [inStateList_length]; simp)
    (by rw [cpList_length]; simp)] at hlen
  simp at hlen
  exact h hlen

/-- C1 (amended): on every accepted input (sorted dates) that ends while
still in the market, the final in-market segment IS tax-realized: the
strategy factor of the last day of history is the tax-adjusted
`((P - 1) * (1 - tax/100) + 1) / Q` computed from the final run `R`
(`P` its compounded pre-tax factor, `Q` that product excluding the last
day), not the pre-tax daily price-change factor. -/
theorem C1_amended_final_segment_taxed (days : List HRow) (sma : List SmaRow)
    (tax ini : ℚ) (bh st : List ℚ) (fl : List (Option ℚ))
    (hd : List.Pairwise (fun a b => a.1 < b.1) days)
    (hlast : (inStateList days sma).getLast? = some 1)
    (hok : calc_evolution days sma tax ini = Except.ok (bh, st, fl)) :
    (strategyFactors tax (evoRows days sma)).getLast? =
      some (((cpProd ((groupRuns (evoRows days sma)).getLastD []) - 1) * (1 - tax / 100) + 1) /
        cpProdButLast ((groupRuns (evoRows days sma)).getLastD [])) := by
  have hdays_ne : days ≠ [] := by
    intro he
    rw [he] at hlast
    simp [inStateList, rawDiffs, cumsum] at hlast
  set rows := evoRows days sma with hrows
  have hrows_ne : rows ≠ [] := evoRows_ne_nil days sma hdays_ne
  have hlen_in : (inStateList days sma).length = (days.map (fun r => r.1)).length := by
    rw [inStateList_length]; simp
  have hlen_cp : (cpList days).length = (days.map (fun r => r.1)).length := by
    rw [cpList_length]; simp
  obtain ⟨dlast, hdlast⟩ := exists_getLast? (days.map (fun r => r.1)) (by simpa using hdays_ne)
  obtain ⟨cplast, hcp⟩ := exists_getLast? (cpList days) (by
    intro he
    have hlc := congrArg List.length he
    rw [cpList_length] at hlc
    simp at hlc
    exact hdays_ne hlc)
  have hrl : rows.getLast? = some ⟨1, cplast, dlast⟩ := by
    rw [hrows]
    exact zipRows_getLast? (days.map (fun r => r.1)) (inStateList days sma) (cpList days)
      1 cplast dlast hlen_in hlen_cp hlast hcp hdlast
  set runs := groupRuns rows with hruns
  have hruns_ne : runs ≠ [] := by
    intro he
    apply hrows_ne
    rw [← groupRuns_join rows, ← hruns, he]
    rfl
  set R := runs.getLastD [] with hR
  have hR_mem : R ∈ runs := by
    rw [hR]
    exact getLastD_mem runs [] hruns_ne
  have hR_ne : R ≠ [] := groupRuns_ne_nil_mem rows R (hruns ▸ hR_mem)
  have hRlast : R.getLast? = rows.getLast? := by
    have hj := join_getLast? runs (fun g hg => groupRuns_ne_nil_mem rows g (hruns ▸ hg))
    rw [hruns, groupRuns_join] at hj
    rw [hR, ← hj]
  have hrlR : R.getLast? = some ⟨1, cplast, dlast⟩ := hRlast.trans hrl
  have hallR : ∀ r ∈ R, r.inS = 1 := by
    intro r hrR
    have hconst := groupRuns_const rows R (hruns ▸ hR_mem) r hrR
      ⟨1, cplast, dlast⟩ (getLast?_mem R _ hrlR)
    simpa using hconst
  have hinR : ¬ inProd R = 0 := by
    have h1 : (R.map (fun r => r.inS)).prod = 1 := by
      apply List.prod_eq_one
      intro x hx
      rcases List.mem_map.mp hx with ⟨r, hr, rfl⟩
      exact hallR r hr
    unfold inProd
    rw [h1]
    norm_num
  have hjoin_dates : runs.join.map (fun r => r.date) = days.map (fun r => r.1) := by
    rw [hruns, groupRuns_join, hrows]
    exact zipRows_map_date (days.map (fun r => r.1)) _ _ hlen_in hlen_cp
  have hnodup : (runs.map (fun g => (g.getLastD default).date)).Nodup := by
    apply List.Nodup.sublist
      (sel_last_sublist runs (fun g hg => groupRuns_ne_nil_mem rows g (hruns ▸ hg)))
    rw [hjoin_dates]
    have hpw : List.Pairwise (fun a b => a < b) (days.map (fun r => r.1)) :=
      List.pairwise_map.mpr hd
    exact hpw.imp (fun hab => ne_of_lt hab)
  have hRd : (R.getLastD default).date = dlast := by
    rw [List.getLastD_eq_getLast?, hrlR]
    rfl
  have hentry : (dlast, gainFactor tax R) ∈ gainAssoc tax rows := by
    rw [gainAssoc, ← hruns, ← hRd]
    exact List.mem_map_of_mem _ hR_mem
  have hkeys_eq : (gainAssoc tax rows).map (fun p => p.1) =
      runs.map (fun g => (g.getLastD default).date) := by
    rw [gainAssoc, ← hruns, List.map_map]
    rfl
  have hlookup : alookup dlast (gainAssoc tax rows) = some (gainFactor tax R) := by
    apply alookup_of_nodup
    · rw [hkeys_eq]
      exact hnodup
    · exact hentry
  rw [strategyFactors, getLast?_map, hrl, Option.map_some']
  show some (match alookup dlast (gainAssoc tax rows) with
    | some f => f
    | none => baseFactor ⟨1, cplast, dlast⟩) = _
  rw [hlookup]
  show some (gainFactor tax R) = _
  rw [gainFactor, if_neg hinR]

/-- Witness for the amended C1 at a concrete accepted input ending in-market. -/
theorem C1_amended_witness :
    (strategyFactors 26 (evoRows c1days c1sma)).getLast? =
      some (((cpProd ((groupRuns (evoRows c1days c1sma)).getLastD []) - 1) * (1 - 26 / 100) + 1) /
        cpProdButLast ((groupRuns (evoRows c1days c1sma)).getLastD [])) :=
  C1_amended_final_segment_taxed c1days c1sma 26 10000
    [10000, 10000, 10000, 10000, 10000, 20000]
    [10000, 10000, 10000, 10000, 10000, 17400]
    [none, none, none, some 10000, some 10000, none]
    (by norm_num [c1days, List.pairwise_cons])
    (by norm_num [inStateList, c1days, c1sma, rawDiffs, dayDiff, smaDiffAssoc, alookup,
      cumsum, List.find?])
    (by norm_num [calc_evolution, c1days, c1sma, inStateList, rawDiffs, dayDiff, smaDiffAssoc,
      alookup, cumsum, cumprod, cpList, evoRows, zipRows, strategyFactors, gainAssoc, groupRuns,
      runsCons, gainFactor, inProd, cpProd, cpProdButLast, baseFactor, List.find?])

/-- A two-day in-market run whose price halves twice (compounded factor 1/4). -/
def c2run : List EvoRow := [⟨1, 1 / 2, 3⟩, ⟨1, 1 / 2, 4⟩]

/-- Witness for the amended C2 at a concrete losing in-market run. -/
theorem C2_amended_witness :
    (inProd c2run = 0 → gainFactor 26 c2run = 1) ∧
    ((∀ r ∈ c2run, r.inS = 1) → cpProd c2run = 1 →
      gainFactor 26 c2run = (⟨1, 1 / 2, 4⟩ : EvoRow).cp) ∧
    ((∀ r ∈ c2run, r.inS = 1) → 1 < cpProd c2run →
      gainFactor 26 c2run < (⟨1, 1 / 2, 4⟩ : EvoRow).cp) ∧
    ((∀ r ∈ c2run, r.inS = 1) → cpProd c2run < 1 →
      (⟨1, 1 / 2, 4⟩ : EvoRow).cp < gainFactor 26 c2run) :=
  C2_amended_segment_tax_cases 26 c2run ⟨1, 1 / 2, 4⟩
    (by norm_num [c2run])
    (by norm_num [c2run])
    (by norm_num)
    (by norm_num)
